import Mathlib

/-!
Shallow embedding of the axis-generation core of the `adel` repository
(`src/adel/plantgen_extensions.py` and `src/adel/plantgen/tools.py`),
together with theorems settling the specification claims about it.

Numbers that Python holds as floats are embedded as exact rationals (`ℚ`);
Python `int(x)` (truncation toward zero) is embedded as `pyInt`.
Python dictionaries are embedded as association lists (`List (K × V)`)
whose order is the dictionary's iteration order; dictionary keys are
therefore assumed to be `Nodup` where a claim needs it.
-/

attribute [local semireducible] Rat.add Rat.mul Rat.inv Rat.sub Rat.ofScientific

namespace Adel

/-- Python `int(x)` on a real value: truncation toward zero. -/
def pyInt (q : ℚ) : ℤ :=
  if q < 0 then ⌈q⌉ else ⌊q⌋

/-- Embedding of `modalities(nff)` from `plantgen_extensions.py`:
`m1, m2 = int(nff), int(nff) + 1; p = m1 + 1 - nff; return {m1: p, m2: 1 - p}`. -/
def modalities (nff : ℚ) : List (ℤ × ℚ) :=
  let m1 : ℤ := pyInt nff
  let m2 : ℤ := pyInt nff + 1
  let p : ℚ := (m1 : ℚ) + 1 - nff
  [(m1, p), (m2, 1 - p)]

/-- Increment the value stored under key `k` in an association list
(Python `card[k] += 1`; the key is present whenever the source reaches
this statement, and an absent key leaves the list unchanged). -/
def dictIncr {K : Type} [DecidableEq K] (card : List (K × ℤ)) (k : K) : List (K × ℤ) :=
  match card with
  | [] => []
  | kv :: rest => if kv.1 = k then (kv.1, kv.2 + 1) :: rest else kv :: dictIncr rest k

/-- Embedding of `cardinalities(proba, n)` from `plantgen_extensions.py`:
floors of the proportional shares, then one extra unit to each of the
`missing` keys of largest proportion (Python's `sorted(..., reverse=True)`
is a stable descending sort, embedded as a stable insertion sort), and
finally the zero-count entries are dropped. -/
def cardinalities {K : Type} [DecidableEq K] (proba : List (K × ℚ)) (n : ℤ) :
    List (K × ℤ) :=
  let card := proba.map (fun kv => (kv.1, pyInt (kv.2 * (n : ℚ))))
  let sorted_p := List.insertionSort (fun a b : K × ℚ => b.2 ≤ a.2) proba
  let missing := n - (card.map Prod.snd).sum
  let newKeys := (sorted_p.take missing.toNat).map Prod.fst
  let card2 := newKeys.foldl dictIncr card
  card2.filter (fun kv => 0 < kv.2)

lemma pyInt_eq_floor {q : ℚ} (h : 0 ≤ q) : pyInt q = ⌊q⌋ := by
  simp [pyInt, not_lt.2 h]

/-- C3: for every real `x ≥ 0`, `modalities(x)` returns the two-point
distribution `{⌊x⌋ ↦ p, ⌊x⌋+1 ↦ 1-p}` with both probabilities in `[0,1]`
and expectation `⌊x⌋·p + (⌊x⌋+1)·(1-p) = x`. -/
theorem modalities_spec (nff : ℚ) (h : 0 ≤ nff) :
    modalities nff = [(⌊nff⌋, (⌊nff⌋ : ℚ) + 1 - nff), (⌊nff⌋ + 1, nff - ⌊nff⌋)]
    ∧ (0 ≤ (⌊nff⌋ : ℚ) + 1 - nff ∧ (⌊nff⌋ : ℚ) + 1 - nff ≤ 1)
    ∧ (0 ≤ nff - (⌊nff⌋ : ℚ) ∧ nff - (⌊nff⌋ : ℚ) ≤ 1)
    ∧ (⌊nff⌋ : ℚ) * ((⌊nff⌋ : ℚ) + 1 - nff) + ((⌊nff⌋ : ℚ) + 1) * (nff - ⌊nff⌋) = nff := by
  have hfl : pyInt nff = ⌊nff⌋ := pyInt_eq_floor h
  have h1 : (⌊nff⌋ : ℚ) ≤ nff := Int.floor_le nff
  have h2 : nff < (⌊nff⌋ : ℚ) + 1 := Int.lt_floor_add_one nff
  refine ⟨?_, ⟨by linarith, by linarith⟩, ⟨by linarith, by linarith⟩, by ring⟩
  have hq : (1 : ℚ) - ((⌊nff⌋ : ℚ) + 1 - nff) = nff - ⌊nff⌋ := by ring
  simp only [modalities, hfl, hq]

/-- Witness for `modalities_spec` at the concrete input `nff = 7/2`. -/
theorem modalities_spec_witness :
    modalities (7/2) = [(⌊(7:ℚ)/2⌋, (⌊(7:ℚ)/2⌋ : ℚ) + 1 - 7/2), (⌊(7:ℚ)/2⌋ + 1, 7/2 - ⌊(7:ℚ)/2⌋)]
    ∧ (0 ≤ (⌊(7:ℚ)/2⌋ : ℚ) + 1 - 7/2 ∧ (⌊(7:ℚ)/2⌋ : ℚ) + 1 - 7/2 ≤ 1)
    ∧ (0 ≤ 7/2 - (⌊(7:ℚ)/2⌋ : ℚ) ∧ 7/2 - (⌊(7:ℚ)/2⌋ : ℚ) ≤ 1)
    ∧ (⌊(7:ℚ)/2⌋ : ℚ) * ((⌊(7:ℚ)/2⌋ : ℚ) + 1 - 7/2)
        + ((⌊(7:ℚ)/2⌋ : ℚ) + 1) * (7/2 - ⌊(7:ℚ)/2⌋) = 7/2 :=
  modalities_spec (7/2) (by norm_num)

section CardinalityLemmas

variable {K : Type} [DecidableEq K]

lemma dictIncr_keys (card : List (K × ℤ)) (k : K) :
    (dictIncr card k).map Prod.fst = card.map Prod.fst := by
  induction card with
  | nil => rfl
  | cons kv rest ih =>
    by_cases h : kv.1 = k <;> simp [dictIncr, h, ih]

lemma dictIncr_sum_of_mem (card : List (K × ℤ)) (k : K)
    (h : k ∈ card.map Prod.fst) :
    ((dictIncr card k).map Prod.snd).sum = (card.map Prod.snd).sum + 1 := by
  induction card with
  | nil => simp at h
  | cons kv rest ih =>
    by_cases hk : kv.1 = k
    · simp [dictIncr, hk]
      ring
    · simp only [List.map_cons, List.mem_cons] at h
      rcases h with h | h
      · exact absurd h.symm hk
      · simp [dictIncr, hk, ih h]
        ring

lemma dictIncr_nonneg (card : List (K × ℤ)) (k : K)
    (h : ∀ kv ∈ card, 0 ≤ kv.2) :
    ∀ kv ∈ dictIncr card k, 0 ≤ kv.2 := by
  induction card with
  | nil => simp [dictIncr]
  | cons kv0 rest ih =>
    intro kv hkv
    by_cases hk : kv0.1 = k
    · simp only [dictIncr, if_pos hk, List.mem_cons] at hkv
      rcases hkv with h' | h'
      · have h0 : 0 ≤ kv0.2 := h kv0 (List.mem_cons_self _ _)
        subst h'
        simpa using by linarith
      · exact h kv (List.mem_cons_of_mem _ h')
    · simp only [dictIncr, if_neg hk, List.mem_cons] at hkv
      rcases hkv with h' | h'
      · subst h'
        exact h kv (List.mem_cons_self _ _)
      · exact ih (fun x hx => h x (List.mem_cons_of_mem _ hx)) kv h'

lemma foldl_dictIncr_keys (newKeys : List K) (card : List (K × ℤ)) :
    ((newKeys.foldl dictIncr card).map Prod.fst) = card.map Prod.fst := by
  induction newKeys generalizing card with
  | nil => rfl
  | cons k rest ih => simp [List.foldl_cons, ih, dictIncr_keys]

lemma foldl_dictIncr_sum (newKeys : List K) (card : List (K × ℤ))
    (h : ∀ k ∈ newKeys, k ∈ card.map Prod.fst) :
    ((newKeys.foldl dictIncr card).map Prod.snd).sum
      = (card.map Prod.snd).sum + newKeys.length := by
  induction newKeys generalizing card with
  | nil => simp
  | cons k rest ih =>
    have hk : k ∈ card.map Prod.fst := h k (List.mem_cons_self _ _)
    have hrest : ∀ k' ∈ rest, k' ∈ (dictIncr card k).map Prod.fst := by
      intro k' hk'
      rw [dictIncr_keys]
      exact h k' (List.mem_cons_of_mem _ hk')
    simp only [List.foldl_cons, ih (dictIncr card k) hrest,
      dictIncr_sum_of_mem card k hk, List.length_cons]
    push_cast
    ring

lemma foldl_dictIncr_nonneg (newKeys : List K) (card : List (K × ℤ))
    (h : ∀ kv ∈ card, 0 ≤ kv.2) :
    ∀ kv ∈ newKeys.foldl dictIncr card, 0 ≤ kv.2 := by
  induction newKeys generalizing card with
  | nil => simpa using h
  | cons k rest ih =>
    simp only [List.foldl_cons]
    exact ih (dictIncr card k) (dictIncr_nonneg card k h)

lemma sum_filter_pos (l : List (K × ℤ)) (h : ∀ kv ∈ l, 0 ≤ kv.2) :
    ((l.filter (fun kv => 0 < kv.2)).map Prod.snd).sum = (l.map Prod.snd).sum := by
  induction l with
  | nil => rfl
  | cons kv rest ih =>
    have h0 : 0 ≤ kv.2 := h kv (List.mem_cons_self _ _)
    have hrest := ih (fun x hx => h x (List.mem_cons_of_mem _ hx))
    by_cases hp : 0 < kv.2
    · simp [List.filter_cons, hp, hrest]
    · have : kv.2 = 0 := le_antisymm (not_lt.1 hp) h0
      simp [List.filter_cons, hp, hrest, this]

/-- Sum of floors is at most the sum. -/
lemma floorSum_le (l : List ℚ) :
    (((l.map (fun q => ⌊q⌋)).sum : ℤ) : ℚ) ≤ l.sum := by
  induction l with
  | nil => simp
  | cons q rest ih =>
    simp only [List.map_cons, List.sum_cons, Int.cast_add]
    have := Int.floor_le q
    linarith

/-- Strict lower bound on the sum of floors over a nonempty list. -/
lemma lt_floorSum (l : List ℚ) (h : l ≠ []) :
    l.sum - l.length < (((l.map (fun q => ⌊q⌋)).sum : ℤ) : ℚ) := by
  induction l with
  | nil => exact absurd rfl h
  | cons q rest ih =>
    by_cases hne : rest = []
    · subst hne
      simp only [List.map_cons, List.map_nil, List.sum_cons, List.sum_nil,
        List.length_cons, List.length_nil, Nat.cast_one, Nat.cast_zero, add_zero, zero_add]
      have := Int.sub_one_lt_floor q
      linarith
    · have h1 := ih hne
      simp only [List.map_cons, List.sum_cons, List.length_cons, Int.cast_add,
        Nat.cast_add, Nat.cast_one]
      have := Int.sub_one_lt_floor q
      linarith

end CardinalityLemmas

/-- Unfolding of `cardinalities` to its zeta-reduced body. -/
lemma cardinalities_unfold {K : Type} [DecidableEq K] (proba : List (K × ℚ)) (n : ℤ) :
    cardinalities proba n =
      ((((List.insertionSort (fun a b : K × ℚ => b.2 ≤ a.2) proba).take
            (n - ((proba.map (fun kv => (kv.1, pyInt (kv.2 * (n : ℚ))))).map Prod.snd).sum).toNat).map
          Prod.fst).foldl dictIncr
        (proba.map (fun kv => (kv.1, pyInt (kv.2 * (n : ℚ)))))).filter (fun kv => 0 < kv.2) :=
  rfl

/-- C1: for a proportion mapping with non-negative values summing to 1 and
any integer `n ≥ 0`, `cardinalities(proportions, n)` returns non-negative
counts summing exactly to `n`, and `n = 0` yields the empty result. -/
theorem cardinalities_sum {K : Type} [DecidableEq K] (proba : List (K × ℚ)) (n : ℤ)
    (hn : 0 ≤ n)
    (hnd : (proba.map Prod.fst).Nodup)
    (hpos : ∀ kv ∈ proba, 0 ≤ kv.2)
    (hsum : (proba.map Prod.snd).sum = 1) :
    (∀ kv ∈ cardinalities proba n, 0 ≤ kv.2)
    ∧ ((cardinalities proba n).map Prod.snd).sum = n
    ∧ (n = 0 → cardinalities proba n = []) := by
  have hne : proba ≠ [] := by
    rintro rfl
    simp at hsum
  -- the floors of the proportional shares
  have hcard0vals :
      ((proba.map (fun kv => (kv.1, pyInt (kv.2 * (n : ℚ))))).map Prod.snd)
        = proba.map (fun kv => ⌊kv.2 * (n : ℚ)⌋) := by
    rw [List.map_map]
    exact List.map_congr_left (fun kv hkv =>
      pyInt_eq_floor (mul_nonneg (hpos kv hkv) (by exact_mod_cast hn)))
  -- bounds on the sum of the floors
  have hmapfl :
      ((proba.map (fun kv => kv.2 * (n : ℚ))).map (fun q => ⌊q⌋))
        = proba.map (fun kv => ⌊kv.2 * (n : ℚ)⌋) := by
    rw [List.map_map]
    rfl
  have hlsum : (proba.map (fun kv => kv.2 * (n : ℚ))).sum = (n : ℚ) := by
    have := List.sum_map_mul_right proba Prod.snd ((n : ℚ))
    simpa [hsum] using this
  have hS0le : (proba.map (fun kv => ⌊kv.2 * (n : ℚ)⌋)).sum ≤ n := by
    have h1 := floorSum_le (proba.map (fun kv => kv.2 * (n : ℚ)))
    rw [hmapfl, hlsum] at h1
    exact_mod_cast h1
  have hS0gt : n - (proba.length : ℤ) < (proba.map (fun kv => ⌊kv.2 * (n : ℚ)⌋)).sum := by
    have h1 := lt_floorSum (proba.map (fun kv => kv.2 * (n : ℚ)))
      (by simpa using hne)
    rw [hmapfl, hlsum, List.length_map] at h1
    exact_mod_cast h1
  -- the number of leftover units
  have hm0 : 0 ≤ n - (proba.map (fun kv => ⌊kv.2 * (n : ℚ)⌋)).sum := by linarith
  have hmL : n - (proba.map (fun kv => ⌊kv.2 * (n : ℚ)⌋)).sum < (proba.length : ℤ) := by
    linarith
  -- the sorted copy of the proportion mapping
  have hperm : List.Perm (List.insertionSort (fun a b : K × ℚ => b.2 ≤ a.2) proba) proba :=
    List.perm_insertionSort _ proba
  have hsortlen : (List.insertionSort (fun a b : K × ℚ => b.2 ≤ a.2) proba).length
      = proba.length := hperm.length_eq
  -- the keys receiving an extra unit
  have hsub : ∀ k ∈ (((List.insertionSort (fun a b : K × ℚ => b.2 ≤ a.2) proba).take
        (n - (proba.map (fun kv => ⌊kv.2 * (n : ℚ)⌋)).sum).toNat).map Prod.fst),
      k ∈ (proba.map (fun kv => (kv.1, pyInt (kv.2 * (n : ℚ))))).map Prod.fst := by
    intro k hk
    rw [List.map_map]
    simp only [List.mem_map] at hk ⊢
    obtain ⟨kv, hkv, rfl⟩ := hk
    exact ⟨kv, hperm.mem_iff.1 (List.mem_of_mem_take hkv), rfl⟩
  have hnewlen : ((((List.insertionSort (fun a b : K × ℚ => b.2 ≤ a.2) proba).take
        (n - (proba.map (fun kv => ⌊kv.2 * (n : ℚ)⌋)).sum).toNat).map Prod.fst)).length
      = (n - (proba.map (fun kv => ⌊kv.2 * (n : ℚ)⌋)).sum).toNat := by
    rw [List.length_map, List.length_take, hsortlen]
    exact Nat.min_eq_left (by omega)
  -- all counts stay non-negative through the correction
  have hnonneg0 : ∀ kv ∈ proba.map (fun kv => (kv.1, pyInt (kv.2 * (n : ℚ)))), 0 ≤ kv.2 := by
    intro kv hkv
    simp only [List.mem_map] at hkv
    obtain ⟨kv0, hkv0, rfl⟩ := hkv
    rw [pyInt_eq_floor (mul_nonneg (hpos kv0 hkv0) (by exact_mod_cast hn))]
    exact Int.floor_nonneg.2 (mul_nonneg (hpos kv0 hkv0) (by exact_mod_cast hn))
  have hnonneg1 := foldl_dictIncr_nonneg
    (((List.insertionSort (fun a b : K × ℚ => b.2 ≤ a.2) proba).take
      (n - (proba.map (fun kv => ⌊kv.2 * (n : ℚ)⌋)).sum).toNat).map Prod.fst)
    _ hnonneg0
  -- the total of the corrected counts
  have htotal : (((((List.insertionSort (fun a b : K × ℚ => b.2 ≤ a.2) proba).take
        (n - (proba.map (fun kv => ⌊kv.2 * (n : ℚ)⌋)).sum).toNat).map Prod.fst).foldl
          dictIncr (proba.map (fun kv => (kv.1, pyInt (kv.2 * (n : ℚ)))))).map Prod.snd).sum
      = n := by
    rw [foldl_dictIncr_sum _ _ (by
      intro k hk
      have := hsub k (by simpa [hcard0vals] using hk)
      exact this), hnewlen, hcard0vals]
    rw [Int.toNat_of_nonneg hm0]
    ring
  constructor
  · intro kv hkv
    rw [cardinalities_unfold, hcard0vals] at hkv
    have := List.of_mem_filter hkv
    have h01 : 0 < kv.2 := by simpa using this
    exact h01.le
  constructor
  · rw [cardinalities_unfold, hcard0vals]
    rw [sum_filter_pos _ (by
      intro kv hkv
      exact hnonneg1 kv (by simpa [hcard0vals] using hkv))]
    simpa [hcard0vals] using htotal
  · intro hn0
    rw [cardinalities_unfold, hcard0vals]
    rcases hfin : (((((List.insertionSort (fun a b : K × ℚ => b.2 ≤ a.2) proba).take
        (n - (proba.map (fun kv => ⌊kv.2 * (n : ℚ)⌋)).sum).toNat).map Prod.fst).foldl
          dictIncr (proba.map (fun kv => (kv.1, pyInt (kv.2 * (n : ℚ)))))).filter
            (fun kv => 0 < kv.2)) with _ | ⟨kv, rest⟩
    · exact hfin
    · exfalso
      have hsum0 : ((((((List.insertionSort (fun a b : K × ℚ => b.2 ≤ a.2) proba).take
          (n - (proba.map (fun kv => ⌊kv.2 * (n : ℚ)⌋)).sum).toNat).map Prod.fst).foldl
            dictIncr (proba.map (fun kv => (kv.1, pyInt (kv.2 * (n : ℚ)))))).filter
              (fun kv => 0 < kv.2)).map Prod.snd).sum = (n : ℤ) := by
        rw [sum_filter_pos _ (by
          intro kv' hkv'
          exact hnonneg1 kv' hkv')]
        exact htotal
      rw [hfin] at hsum0
      have hkvpos : 0 < kv.2 := by
        have := List.of_mem_filter (hfin ▸ List.mem_cons_self kv rest :
          kv ∈ _)
        simpa using this
      have hrestpos : 0 ≤ (rest.map Prod.snd).sum := by
        apply List.sum_nonneg
        intro x hx
        simp only [List.mem_map] at hx
        obtain ⟨kv', hkv', rfl⟩ := hx
        have hmem : kv' ∈ (((((List.insertionSort (fun a b : K × ℚ => b.2 ≤ a.2) proba).take
            (n - (proba.map (fun kv => ⌊kv.2 * (n : ℚ)⌋)).sum).toNat).map Prod.fst).foldl
              dictIncr (proba.map (fun kv => (kv.1, pyInt (kv.2 * (n : ℚ)))))).filter
                (fun kv => 0 < kv.2)) := by
          rw [hfin]
          exact List.mem_cons_of_mem _ hkv'
        have := List.of_mem_filter hmem
        have h01 : 0 < kv'.2 := by simpa using this
        exact h01.le
      simp only [List.map_cons, List.sum_cons] at hsum0
      omega

/-- Reference definition following the spec's words (§4.5): allocate
`total_count` units proportionally, rounding down, "then distributes the
remaining units (total_count minus sum of floors) one each to the
categories with the largest proportions, in descending-proportion order;
categories ending at zero are dropped from the result". Ties between equal
proportions keep the mapping order (stable sort). -/
def spec_largest_weight_alloc {K : Type} [DecidableEq K] (proba : List (K × ℚ)) (n : ℤ) :
    List (K × ℤ) :=
  (proba.map (fun kv => (kv.1,
      ⌊kv.2 * (n : ℚ)⌋ +
        if kv.1 ∈ ((List.insertionSort (fun a b : K × ℚ => b.2 ≤ a.2) proba).take
            (n - (proba.map (fun kv => ⌊kv.2 * (n : ℚ)⌋)).sum).toNat).map Prod.fst
        then 1 else 0))).filter (fun kv => 0 < kv.2)

/-- Reference definition following the claim's words (glossary: "rounding
method allocating leftover integer units to categories with the largest
fractional remainders"): same floors, but the leftover units go one each to
the categories whose shares have the largest fractional remainders, in
descending-remainder order (stable on ties). -/
def spec_largest_remainder_alloc {K : Type} [DecidableEq K] (proba : List (K × ℚ)) (n : ℤ) :
    List (K × ℤ) :=
  (proba.map (fun kv => (kv.1,
      ⌊kv.2 * (n : ℚ)⌋ +
        if kv.1 ∈ ((List.insertionSort
            (fun a b : K × ℚ => Int.fract (b.2 * (n : ℚ)) ≤ Int.fract (a.2 * (n : ℚ))) proba).take
            (n - (proba.map (fun kv => ⌊kv.2 * (n : ℚ)⌋)).sum).toNat).map Prod.fst
        then 1 else 0))).filter (fun kv => 0 < kv.2)

/-- Counterexample for C2: with proportions `{0 ↦ 0.7, 1 ↦ 0.3}` and `n = 9`
the code gives the leftover unit to key 0 (the largest proportion), while
the largest-remainder rule gives it to key 1 (remainder 0.7 > 0.3), so
`cardinalities` does not implement largest-remainder apportionment. -/
theorem cardinalities_not_largest_remainder :
    cardinalities [((0 : ℤ), (7 : ℚ)/10), (1, 3/10)] 9 = [(0, 7), (1, 2)]
    ∧ spec_largest_remainder_alloc [((0 : ℤ), (7 : ℚ)/10), (1, 3/10)] 9 = [(0, 6), (1, 3)]
    ∧ cardinalities [((0 : ℤ), (7 : ℚ)/10), (1, 3/10)] 9
        ≠ spec_largest_remainder_alloc [((0 : ℤ), (7 : ℚ)/10), (1, 3/10)] 9 :=
  ⟨by decide, by decide, by decide⟩

lemma dictIncr_eq_map {K : Type} [DecidableEq K] (card : List (K × ℤ)) (k : K)
    (hnd : (card.map Prod.fst).Nodup) :
    dictIncr card k = card.map (fun kv => (kv.1, kv.2 + if kv.1 = k then 1 else 0)) := by
  induction card with
  | nil => rfl
  | cons kv rest ih =>
    simp only [List.map_cons, List.nodup_cons] at hnd
    by_cases hk : kv.1 = k
    · subst hk
      have hrest : rest.map (fun kv' => ((kv'.1 : K), kv'.2 + if kv'.1 = kv.1 then 1 else 0))
          = rest := by
        have : ∀ kv' ∈ rest, ((kv'.1 : K), kv'.2 + if kv'.1 = kv.1 then 1 else 0) = kv' := by
          intro kv' hkv'
          have hne : kv'.1 ≠ kv.1 := by
            intro he
            exact hnd.1 (he ▸ List.mem_map_of_mem Prod.fst hkv')
          simp [hne]
        simpa using List.map_congr_left this
      simp [dictIncr, hrest]
    · simp [dictIncr, hk, ih hnd.2]

lemma foldl_dictIncr_eq_map {K : Type} [DecidableEq K] (newKeys : List K)
    (card : List (K × ℤ)) (hnd : (card.map Prod.fst).Nodup) (hnew : newKeys.Nodup) :
    newKeys.foldl dictIncr card
      = card.map (fun kv => (kv.1, kv.2 + if kv.1 ∈ newKeys then 1 else 0)) := by
  induction newKeys generalizing card with
  | nil => simp
  | cons k rest ih =>
    simp only [List.nodup_cons] at hnew
    have hkeys : ((dictIncr card k).map Prod.fst).Nodup := by
      rw [dictIncr_keys]
      exact hnd
    have step := ih (dictIncr card k) hkeys hnew.2
    rw [List.foldl_cons, step, dictIncr_eq_map card k hnd, List.map_map]
    refine List.map_congr_left ?_
    intro kv _
    simp only [Function.comp_apply, List.mem_cons]
    by_cases h1 : kv.1 = k
    · simp [h1, hnew.1]
    · simp [h1]

/-- Amended C2: after rounding each proportional share down, the code gives
the leftover units one each to the categories with the largest *original
proportions* (in descending-proportion order), not the largest fractional
remainders: `cardinalities` agrees with the spec-worded
largest-proportion allocator on every valid proportion mapping. -/
theorem cardinalities_eq_largest_weight_alloc {K : Type} [DecidableEq K]
    (proba : List (K × ℚ)) (n : ℤ) (hn : 0 ≤ n)
    (hnd : (proba.map Prod.fst).Nodup)
    (hpos : ∀ kv ∈ proba, 0 ≤ kv.2) :
    cardinalities proba n = spec_largest_weight_alloc proba n := by
  have hcard0vals :
      ((proba.map (fun kv => (kv.1, pyInt (kv.2 * (n : ℚ))))).map Prod.snd)
        = proba.map (fun kv => ⌊kv.2 * (n : ℚ)⌋) := by
    rw [List.map_map]
    exact List.map_congr_left (fun kv hkv =>
      pyInt_eq_floor (mul_nonneg (hpos kv hkv) (by exact_mod_cast hn)))
  have hcardeq : proba.map (fun kv => ((kv.1 : K), pyInt (kv.2 * (n : ℚ))))
      = proba.map (fun kv => (kv.1, ⌊kv.2 * (n : ℚ)⌋)) :=
    List.map_congr_left (fun kv hkv => by
      rw [pyInt_eq_floor (mul_nonneg (hpos kv hkv) (by exact_mod_cast hn))])
  have hperm : List.Perm (List.insertionSort (fun a b : K × ℚ => b.2 ≤ a.2) proba) proba :=
    List.perm_insertionSort _ proba
  have hkeysnd : ((proba.map (fun kv => ((kv.1 : K), ⌊kv.2 * (n : ℚ)⌋))).map Prod.fst).Nodup := by
    rw [List.map_map]
    exact hnd
  have hnewnd : ((((List.insertionSort (fun a b : K × ℚ => b.2 ≤ a.2) proba).take
      (n - (proba.map (fun kv => ⌊kv.2 * (n : ℚ)⌋)).sum).toNat).map Prod.fst)).Nodup := by
    have hsortnd : ((List.insertionSort (fun a b : K × ℚ => b.2 ≤ a.2) proba).map Prod.fst).Nodup :=
      ((hperm.map Prod.fst).nodup_iff).2 hnd
    rw [List.map_take]
    exact hsortnd.sublist (List.take_sublist _ _)
  rw [cardinalities_unfold, hcard0vals, hcardeq, spec_largest_weight_alloc,
    foldl_dictIncr_eq_map _ _ hkeysnd hnewnd, List.map_map]
  rfl

/-- Witness for `cardinalities_eq_largest_weight_alloc` at
`proba = [(0, 7/10), (1, 3/10)]`, `n = 9`. -/
theorem cardinalities_eq_largest_weight_alloc_witness :
    cardinalities [((0 : ℤ), (7 : ℚ)/10), (1, 3/10)] 9
      = spec_largest_weight_alloc [((0 : ℤ), (7 : ℚ)/10), (1, 3/10)] 9 :=
  cardinalities_eq_largest_weight_alloc [((0 : ℤ), (7 : ℚ)/10), (1, 3/10)] 9
    (by decide) (by decide) (by decide)

/-- Witness for `cardinalities_sum` at `proba = [(0, 7/10), (1, 3/10)]`, `n = 9`. -/
theorem cardinalities_sum_witness :
    (∀ kv ∈ cardinalities [((0 : ℤ), (7 : ℚ)/10), (1, 3/10)] 9, 0 ≤ kv.2)
    ∧ ((cardinalities [((0 : ℤ), (7 : ℚ)/10), (1, 3/10)] 9).map Prod.snd).sum = 9
    ∧ ((9 : ℤ) = 0 → cardinalities [((0 : ℤ), (7 : ℚ)/10), (1, 3/10)] 9 = []) :=
  cardinalities_sum [((0 : ℤ), (7 : ℚ)/10), (1, 3/10)] 9
    (by decide) (by decide) (by decide) (by decide)

/-! ## `calculate_MS_final_leaves_number` (`plantgen/tools.py`) -/

/-- The cumulative-probability walk inside `calculate_MS_final_leaves_number`:
accumulate each entry's probability and return the first key whose cumulative
mass reaches the drawn value. -/
def msWalk (items : List (ℚ × ℚ)) (random_value : ℚ) (probabilities_sum : ℚ) : Option ℚ :=
  match items with
  | [] => none
  | kp :: rest =>
    let s := probabilities_sum + kp.2
    if random_value ≤ s then some kp.1 else msWalk rest random_value s

/-- Embedding of `calculate_MS_final_leaves_number(probabilities)` from `plantgen/tools.py`:
inverse-CDF sampling over the mapping's iteration order; the uniform draw
`random.random()` is passed explicitly, and the numeric value of each key
(`float(leaves_number_str)`) is the key itself.  Returns `none` (Python
`None`) when the walk exhausts the mapping. -/
def calculate_MS_final_leaves_number (probs : List (ℚ × ℚ)) (random_value : ℚ) : Option ℚ :=
  msWalk probs random_value 0

lemma msWalk_none (items : List (ℚ × ℚ)) (random_value acc : ℚ)
    (hpos : ∀ kp ∈ items, 0 ≤ kp.2)
    (hgt : acc + (items.map Prod.snd).sum < random_value) :
    msWalk items random_value acc = none := by
  induction items generalizing acc with
  | nil => rfl
  | cons kp rest ih =>
    have hrest : ∀ kp' ∈ rest, 0 ≤ kp'.2 := fun kp' h => hpos kp' (List.mem_cons_of_mem _ h)
    have hsumrest : 0 ≤ (rest.map Prod.snd).sum := by
      apply List.sum_nonneg
      intro x hx
      simp only [List.mem_map] at hx
      obtain ⟨kp', hkp', rfl⟩ := hx
      exact hrest kp' hkp'
    simp only [List.map_cons, List.sum_cons] at hgt
    have hcond : ¬ random_value ≤ acc + kp.2 := by
      push_neg
      linarith
    simp only [msWalk, if_neg hcond]
    exact ih (acc + kp.2) hrest (by linarith)

/-- C10: `calculate_MS_final_leaves_number` returns `None` whenever the drawn
uniform value exceeds the total cumulative probability mass; in particular,
for a mapping whose probabilities sum to strictly less than 1 there is a
draw in `[0,1)` for which it returns `None`, without signalling an error. -/
theorem calculate_MS_final_leaves_number_none (probs : List (ℚ × ℚ))
    (hpos : ∀ kp ∈ probs, 0 ≤ kp.2) :
    (∀ random_value, (probs.map Prod.snd).sum < random_value →
        calculate_MS_final_leaves_number probs random_value = none)
    ∧ ((probs.map Prod.snd).sum < 1 →
        ∃ random_value, 0 ≤ random_value ∧ random_value < 1
          ∧ (probs.map Prod.snd).sum < random_value
          ∧ calculate_MS_final_leaves_number probs random_value = none) := by
  have hmain : ∀ random_value, (probs.map Prod.snd).sum < random_value →
      calculate_MS_final_leaves_number probs random_value = none := by
    intro rv hrv
    exact msWalk_none probs rv 0 hpos (by linarith)
  refine ⟨hmain, ?_⟩
  intro hlt
  have hs0 : 0 ≤ (probs.map Prod.snd).sum := by
    apply List.sum_nonneg
    intro x hx
    simp only [List.mem_map] at hx
    obtain ⟨kp, hkp, rfl⟩ := hx
    exact hpos kp hkp
  refine ⟨((probs.map Prod.snd).sum + 1) / 2, by linarith, by linarith, by linarith, ?_⟩
  exact hmain _ (by linarith)

/-- Witness for `calculate_MS_final_leaves_number_none` at
`probs = [(11, 1/2)]`. -/
theorem calculate_MS_final_leaves_number_none_witness :
    (∀ random_value, (([((11 : ℚ), (1 : ℚ)/2)]).map Prod.snd).sum < random_value →
        calculate_MS_final_leaves_number [((11 : ℚ), (1 : ℚ)/2)] random_value = none)
    ∧ ((([((11 : ℚ), (1 : ℚ)/2)]).map Prod.snd).sum < 1 →
        ∃ random_value, 0 ≤ random_value ∧ random_value < 1
          ∧ (([((11 : ℚ), (1 : ℚ)/2)]).map Prod.snd).sum < random_value
          ∧ calculate_MS_final_leaves_number [((11 : ℚ), (1 : ℚ)/2)] random_value = none) :=
  calculate_MS_final_leaves_number_none [((11 : ℚ), (1 : ℚ)/2)] (by decide)

/-! ## `decide_child_cohorts` (`plantgen/tools.py`) -/

mutual

/-- Embedding of `decide_child_cohorts(probabilities, parent_cohort_index,
first_child_delay)` from `plantgen/tools.py`.  The probability mapping is an association list
(cohort index, probability); the shared random source is an explicit stream
`draws : ℕ → ℚ` read at position `idx` (one draw per examined candidate,
exactly where the source calls `random.random()`), and the consumed-stream
position is returned alongside the cohort list.  `fuel` bounds the recursion
nesting depth (the source recursion terminates because every recursive call
strictly increases the parent index over a finite key set); all theorems hold
for every (sufficient) fuel. -/
def decide_child_cohorts (probs : List (ℤ × ℚ)) (parent_cohort_index : ℤ)
    (first_child_delay : ℤ) (draws : ℕ → ℚ) (idx : ℕ) (fuel : ℕ) : List ℤ × ℕ :=
  match fuel with
  | 0 => ([], idx)
  | fuel1 + 1 =>
    let first_possible := parent_cohort_index + first_child_delay
    if first_possible = 1 then
      let sub := decide_child_cohorts probs first_possible 2 draws idx fuel1
      (first_possible :: sub.1, sub.2)
    else
      decideLoop probs probs first_possible draws idx fuel1
termination_by (fuel, 0)

/-- The `for`-loop of `decide_child_cohorts` over the probability mapping:
each candidate with index at least `first_possible` consumes one draw and,
when its probability reaches the draw, is appended together with its own
(recursively decided) children. -/
def decideLoop (probs : List (ℤ × ℚ)) (pending : List (ℤ × ℚ)) (first_possible : ℤ)
    (draws : ℕ → ℚ) (idx : ℕ) (fuel : ℕ) : List ℤ × ℕ :=
  match pending with
  | [] => ([], idx)
  | cp :: rest =>
    if first_possible ≤ cp.1 then
      if draws idx ≤ cp.2 then
        let sub := decide_child_cohorts probs cp.1 2 draws (idx + 1) fuel
        let tail := decideLoop probs rest first_possible draws sub.2 fuel
        (cp.1 :: (sub.1 ++ tail.1), tail.2)
      else
        decideLoop probs rest first_possible draws (idx + 1) fuel
    else
      decideLoop probs rest first_possible draws idx fuel
termination_by (fuel, pending.length + 1)

end

/-- C4: with `parent_cohort_index = -1` and `first_child_delay = 2`, the
main stem (cohort 1) is unconditionally the first element of the result,
for every probability mapping and every outcome of the random draws. -/
theorem decide_child_cohorts_main_stem (probs : List (ℤ × ℚ)) (draws : ℕ → ℚ)
    (idx fuel : ℕ) :
    1 ∈ (decide_child_cohorts probs (-1) 2 draws idx (fuel + 1)).1 := by
  simp [decide_child_cohorts]

lemma decideLoop_mem (fuel : ℕ)
    (h1 : ∀ probs parent delay draws idx c,
        c ∈ (decide_child_cohorts probs parent delay draws idx fuel).1 →
          c = 1 ∨ c ∈ probs.map Prod.fst) :
    ∀ pending probs fp draws idx c, (∀ kp ∈ pending, kp ∈ probs) →
        c ∈ (decideLoop probs pending fp draws idx fuel).1 →
          c = 1 ∨ c ∈ probs.map Prod.fst := by
  intro pending
  induction pending with
  | nil =>
    intro probs fp draws idx c _ hc
    simp [decideLoop] at hc
  | cons cp rest ih =>
    intro probs fp draws idx c hsub hc
    by_cases hge : fp ≤ cp.1
    · by_cases hdr : draws idx ≤ cp.2
      · simp only [decideLoop, if_pos hge, if_pos hdr] at hc
        rcases List.mem_cons.1 hc with rfl | hc2
        · exact Or.inr (List.mem_map_of_mem Prod.fst (hsub cp (List.mem_cons_self _ _)))
        · rcases List.mem_append.1 hc2 with h3 | h3
          · exact h1 probs cp.1 2 draws (idx + 1) c h3
          · exact ih probs fp draws _ c (fun kp h => hsub kp (List.mem_cons_of_mem _ h)) h3
      · simp only [decideLoop, if_pos hge, if_neg hdr] at hc
        exact ih probs fp draws _ c (fun kp h => hsub kp (List.mem_cons_of_mem _ h)) hc
    · simp only [decideLoop, if_neg hge] at hc
      exact ih probs fp draws _ c (fun kp h => hsub kp (List.mem_cons_of_mem _ h)) hc

lemma decide_child_cohorts_mem : ∀ (fuel : ℕ) (probs : List (ℤ × ℚ))
    (parent delay : ℤ) (draws : ℕ → ℚ) (idx : ℕ) (c : ℤ),
    c ∈ (decide_child_cohorts probs parent delay draws idx fuel).1 →
      c = 1 ∨ c ∈ probs.map Prod.fst := by
  intro fuel
  induction fuel with
  | zero =>
    intro probs parent delay draws idx c hc
    simp [decide_child_cohorts] at hc
  | succ n ih =>
    intro probs parent delay draws idx c hc
    by_cases hfp : parent + delay = 1
    · simp only [decide_child_cohorts, if_pos hfp] at hc
      rcases List.mem_cons.1 hc with rfl | hc2
      · exact Or.inl hfp
      · exact ih probs _ 2 draws idx c hc2
    · simp only [decide_child_cohorts, if_neg hfp] at hc
      exact decideLoop_mem n ih probs probs _ draws idx c (fun kp h => h) hc

/-- Counterexample for C5: with probabilities `{3 ↦ 1, 5 ↦ 1}` and draws all
zero, cohort 5 is included both as a child of cohort 3 and as a direct child
of cohort 1, so the returned list `[1, 3, 5, 5]` contains cohort 5 twice and
is not duplicate-free. -/
theorem decide_child_cohorts_duplicate :
    (decide_child_cohorts [(3, 1), (5, 1)] (-1) 2 (fun _ => 0) 0 6).1 = [1, 3, 5, 5]
    ∧ ¬ ((decide_child_cohorts [(3, 1), (5, 1)] (-1) 2 (fun _ => 0) 0 6).1.Nodup) := by
  have h : (decide_child_cohorts [(3, 1), (5, 1)] (-1) 2 (fun _ => 0) 0 6).1 = [1, 3, 5, 5] := by
    simp [decide_child_cohorts, decideLoop]
  refine ⟨h, ?_⟩
  rw [h]
  decide

/-- Amended C5: the returned list enumerates the included cohort indices but
may repeat a cohort spawned by several distinct parents; every listed index
is either the main stem (1) or a key of the probability mapping. -/
theorem decide_child_cohorts_mem_keys (probs : List (ℤ × ℚ))
    (parent_cohort_index first_child_delay : ℤ) (draws : ℕ → ℚ) (idx fuel : ℕ) (c : ℤ)
    (hc : c ∈ (decide_child_cohorts probs parent_cohort_index first_child_delay
        draws idx fuel).1) :
    c = 1 ∨ c ∈ probs.map Prod.fst :=
  decide_child_cohorts_mem fuel probs parent_cohort_index first_child_delay draws idx c hc

/-- Witness for `decide_child_cohorts_mem_keys`: the empty mapping with one
unit of fuel yields `[1]`, whose sole element satisfies the conclusion. -/
theorem decide_child_cohorts_mem_keys_witness :
    (1 : ℤ) ∈ (decide_child_cohorts [] (-1) 2 (fun _ => 0) 0 1).1
    ∧ ((1 : ℤ) = 1 ∨ (1 : ℤ) ∈ ([] : List (ℤ × ℚ)).map Prod.fst) := by
  have h : (1 : ℤ) ∈ (decide_child_cohorts [] (-1) 2 (fun _ => 0) 0 1).1 := by
    simp [decide_child_cohorts]
  exact ⟨h, decide_child_cohorts_mem_keys [] (-1) 2 (fun _ => 0) 0 1 1 h⟩

/-! ## `plant_list` (`plantgen_extensions.py`) -/

/-- Split a character list on `'.'` (the behaviour of Python's
`axe.rsplit('.')`, which for a separator argument equals `split('.')`). -/
def splitDot : List Char → List (List Char)
  | [] => [[]]
  | c :: rest =>
    match splitDot rest with
    | [] => [[]]
    | g :: gs => if c = '.' then [] :: g :: gs else (c :: g) :: gs

/-- Embedding of `_parent(axe)` from `plantgen_extensions.py`:
`'.'.join(axe.rsplit('.')[:-1])`. -/
def _parent (axe : String) : String :=
  String.intercalate "." (((splitDot axe.data).dropLast).map (fun cs => String.mk cs))

/-- Embedding of `_choose_plant(axe_name, plantlist)` from `plant_list`: the candidates are
the plants that do not already hold `axe_name` and that contain its parent
identifier (or the parent is empty); `random.sample(candidates, 1)[0]` is an
oracle choice among the candidate *positions* (Python samples among aliased
plant dicts and mutates the chosen one in place).  `none` embeds the
`ValueError` that `random.sample` raises on an empty candidate list. -/
def _choose_plant {α : Type} (axe_name : String) (plantlist : List (List (String × α)))
    (choice : ℕ) : Option ℕ :=
  let candidates := (List.range plantlist.length).filter (fun j =>
    decide (axe_name ∉ (plantlist.getD j []).map Prod.fst
      ∧ (_parent axe_name ∈ (plantlist.getD j []).map Prod.fst ∨ _parent axe_name = "")))
  candidates.get? (choice % candidates.length)

/-- Embedding of `_update(plantlist, axe)` from `plant_list`: add the axis (key `axe[-1]`,
value `axe[:-1]`) to the chosen plant. -/
def _update {α : Type} (plantlist : List (List (String × α))) (axe : α × String)
    (choice : ℕ) : Option (List (List (String × α))) :=
  match _choose_plant axe.2 plantlist choice with
  | none => none
  | some j => some (plantlist.set j ((plantlist.getD j []) ++ [(axe.2, axe.1)]))

/-- The `reduce(_update, axis, plants)` of `plant_list`, threading the
random-choice stream. -/
def plantFold {α : Type} (axis : List (α × String)) (choices : ℕ → ℕ) (step : ℕ)
    (plants : List (List (String × α))) : Option (List (List (String × α))) :=
  match axis with
  | [] => some plants
  | axe :: rest =>
    match _update plants axe (choices step) with
    | none => none
    | some plants2 => plantFold rest choices (step + 1) plants2

/-- Embedding of `plant_list(axis, nplants)` from `plantgen_extensions.py`: distribute the
axis instances (data, identifier) over `nplants` initially empty plants.
An axis instance is embedded as `(axe[:-1], axe[-1])`, i.e. data first and
identifier last, exactly as the source's tuples. -/
def plant_list {α : Type} (axis : List (α × String)) (nplants : ℕ) (choices : ℕ → ℕ) :
    Option (List (List (String × α))) :=
  plantFold axis choices 0 (List.replicate nplants [])

lemma _update_invariant {α : Type} (plants : List (List (String × α))) (axe : α × String)
    (c : ℕ) (plants2 : List (List (String × α)))
    (hP : ∀ plant ∈ plants, ∀ kv ∈ plant, _parent kv.1 = "" ∨ _parent kv.1 ∈ plant.map Prod.fst)
    (hup : _update plants axe c = some plants2) :
    ∀ plant ∈ plants2, ∀ kv ∈ plant,
      _parent kv.1 = "" ∨ _parent kv.1 ∈ plant.map Prod.fst := by
  rcases hj : _choose_plant axe.2 plants c with _ | j
  · rw [_update, hj] at hup
    exact absurd hup (by simp)
  · rw [_update, hj] at hup
    have hup2 : plants.set j ((plants.getD j []) ++ [(axe.2, axe.1)]) = plants2 := by
      simpa using hup
    have hjmem : j ∈ (List.range plants.length).filter (fun j =>
        decide (axe.2 ∉ (plants.getD j []).map Prod.fst
          ∧ (_parent axe.2 ∈ (plants.getD j []).map Prod.fst ∨ _parent axe.2 = ""))) := by
      have := hj
      rw [_choose_plant] at this
      exact List.get?_mem this
    have hjpred : axe.2 ∉ (plants.getD j []).map Prod.fst
        ∧ (_parent axe.2 ∈ (plants.getD j []).map Prod.fst ∨ _parent axe.2 = "") := by
      have := List.of_mem_filter hjmem
      simpa using this
    have hjrange : j < plants.length := by
      have := List.mem_filter.1 hjmem
      simpa using List.mem_range.1 this.1
    intro plant hplant kv hkv
    rw [← hup2] at hplant
    rcases List.mem_or_eq_of_mem_set hplant with hold | hnew
    · exact hP plant hold kv hkv
    · subst hnew
      rcases List.mem_append.1 hkv with hkv1 | hkv2
      · have hPj : ∀ kv ∈ plants.getD j [], _parent kv.1 = ""
            ∨ _parent kv.1 ∈ (plants.getD j []).map Prod.fst := by
          intro kv' hkv'
          have hmem : plants.getD j [] ∈ plants := by
            rw [List.getD_eq_getElem?_getD, List.getElem?_eq_getElem hjrange]
            exact List.getElem_mem hjrange
          exact hP _ hmem kv' hkv'
        rcases hPj kv hkv1 with h | h
        · exact Or.inl h
        · refine Or.inr ?_
          rw [List.map_append]
          exact List.mem_append_left _ h
      · have hkveq : kv = (axe.2, axe.1) := by simpa using hkv2
        subst hkveq
        rcases hjpred.2 with h | h
        · refine Or.inr ?_
          rw [List.map_append]
          exact List.mem_append_left _ h
        · exact Or.inl h

lemma plantFold_invariant {α : Type} (axis : List (α × String)) (choices : ℕ → ℕ) :
    ∀ (step : ℕ) (plants out : List (List (String × α))),
      (∀ plant ∈ plants, ∀ kv ∈ plant,
        _parent kv.1 = "" ∨ _parent kv.1 ∈ plant.map Prod.fst) →
      plantFold axis choices step plants = some out →
      ∀ plant ∈ out, ∀ kv ∈ plant,
        _parent kv.1 = "" ∨ _parent kv.1 ∈ plant.map Prod.fst := by
  induction axis with
  | nil =>
    intro step plants out hP hfold
    have : plants = out := by simpa [plantFold] using hfold
    exact this ▸ hP
  | cons axe rest ih =>
    intro step plants out hP hfold
    rcases hup : _update plants axe (choices step) with _ | plants2
    · rw [plantFold, hup] at hfold
      exact absurd hfold (by simp)
    · rw [plantFold, hup] at hfold
      exact ih (step + 1) plants2 out (_update_invariant plants axe _ plants2 hP hup) hfold

/-- C8: whenever `plant_list` returns normally, every axis of every produced
plant has a parent identifier that is either empty or itself an axis
identifier present in the same plant, for every outcome of the random
choices. -/
theorem plant_list_parent_invariant {α : Type} (axis : List (α × String)) (nplants : ℕ)
    (choices : ℕ → ℕ) (out : List (List (String × α)))
    (hout : plant_list axis nplants choices = some out) :
    ∀ plant ∈ out, ∀ kv ∈ plant,
      _parent kv.1 = "" ∨ _parent kv.1 ∈ plant.map Prod.fst := by
  refine plantFold_invariant axis choices 0 (List.replicate nplants []) out ?_ hout
  intro plant hplant
  rw [List.eq_of_mem_replicate hplant]
  intro kv hkv
  exact absurd hkv (by simp)

/-- Witness for `plant_list_parent_invariant`: one main-stem axis `"MS"`
distributed over two empty plants. -/
theorem plant_list_parent_invariant_witness :
    plant_list [(((7 : ℤ)), "MS")] 2 (fun _ => 0) = some [[("MS", (7 : ℤ))], []]
    ∧ ∀ plant ∈ [[("MS", (7 : ℤ))], []], ∀ kv ∈ plant,
        _parent kv.1 = "" ∨ _parent kv.1 ∈ plant.map Prod.fst := by
  have h : plant_list [(((7 : ℤ)), "MS")] 2 (fun _ => 0) = some [[("MS", (7 : ℤ))], []] := by
    decide
  exact ⟨h, fun plant hp kv hkv =>
    plant_list_parent_invariant [(((7 : ℤ)), "MS")] 2 (fun _ => 0) _ h plant hp kv hkv⟩

/-! ## `fit_poly` (`plantgen/tools.py`) -/

/-- Embedding of `peval(x, a)` from `fit_poly`: `np.poly1d([a] + fixed_coefs)(x)`,
the polynomial with leading coefficient `a` followed by the fixed
coefficients in descending powers, by Horner evaluation. -/
def peval (fixed_coefs : List ℚ) (a : ℚ) (x : ℚ) : ℚ :=
  (a :: fixed_coefs).foldl (fun acc c => acc * x + c) 0

/-- Embedding of `fit_poly(x_meas_array, y_meas_array, fixed_coefs,
a_starting_estimate)` from `plantgen/tools.py`.  The iterative minimiser `scipy.optimize.leastsq`
is abstracted as an oracle `optimize` returning the fitted top coefficient;
`infodict['fvec']` is the residual vector at that coefficient, recomputed
exactly as the source's `residuals` function.  `leastsq` rejects
under-determined input (more parameters than residuals, here zero samples)
with an error, embedded as `Except.error`; no other code path raises.  The
returned second component is the *square* of the RMSE
(`chisq / dof`; the square root does not alter finiteness), and is `none`
when `dof = len(x) - 1 = 0`, where numpy's division by zero yields a
non-finite float instead of raising. -/
def fit_poly (x_meas_array y_meas_array : List ℚ) (fixed_coefs : List ℚ)
    (a_starting_estimate : ℚ)
    (optimize : List ℚ → List ℚ → List ℚ → ℚ → ℚ) :
    Except String (ℚ × Option ℚ) :=
  if x_meas_array.length < 1 then
    Except.error "leastsq: improper input"
  else
    let p := optimize x_meas_array y_meas_array fixed_coefs a_starting_estimate
    let fvec := List.zipWith (fun y x => y - peval fixed_coefs p x) y_meas_array x_meas_array
    let chisq := (fvec.map (fun r => r * r)).sum
    let dof : ℤ := (x_meas_array.length : ℤ) - 1
    Except.ok (p, if dof = 0 then none else some (chisq / (dof : ℚ)))

/-- C9 (code bug): on exactly one sample, `fit_poly` does not signal an
error: it returns normally, with `dof = n_samples - 1 = 0` making the RMSE a
division by zero (a non-finite float), whatever the optimizer returns. -/
theorem fit_poly_one_sample_returns (fixed_coefs : List ℚ) (a_starting_estimate : ℚ)
    (optimize : List ℚ → List ℚ → List ℚ → ℚ → ℚ) :
    fit_poly [1] [2] fixed_coefs a_starting_estimate optimize
      = Except.ok (optimize [1] [2] fixed_coefs a_starting_estimate, none) := by
  simp [fit_poly]

/-! ## `decide_time_of_death` (`plantgen/tools.py`) -/

/-- Embedding of `np.polyfit([x1, x0], [y1, y0], 1)` as `(slope, intercept)`.
For distinct abscissae this is the unique interpolating line.  At `x0 = x1`
the Vandermonde system is rank-deficient: numpy emits a `RankWarning`,
column-scales the matrix by the column norms `(|x1|·√2, √2)` and returns the
minimum-norm least-squares solution via SVD.  For the scaled matrix
`(1/√2)·ones(2,2)` that solution is `v₁·(u₁ᵀy)/σ₁` with
`σ₁ = √2, u₁ = v₁ = (1/√2)·(1,1)`, i.e. both scaled coefficients equal
`(y1+y0)/(2√2)`; unscaling gives slope `m/(2·x1)` and intercept `m/2` where
`m = (y1+y0)/2` is the mean ordinate (for `x1 > 0`; the line passes through
`(x1, m)` as every least-squares solution must, but through neither data
point).  The case `x1 = 0 = x0`, where numpy's scale itself is degenerate,
is not exercised by any theorem below. -/
def polyfit2 (x1 x0 y1 y0 : ℚ) : ℚ × ℚ :=
  if x0 = x1 then
    ((y1 + y0) / (4 * x1), (y1 + y0) / 4)
  else
    let slope := (y0 - y1) / (x0 - x1)
    (slope, y1 - slope * x1)

/-- Embedding of `np.polyval((slope, intercept), x)`. -/
def polyval (coeffs : ℚ × ℚ) (x : ℚ) : ℚ :=
  coeffs.1 * x + coeffs.2

/-- Python `range(a, b + 1)` over integers. -/
def intRange (a b : ℤ) : List ℤ :=
  (List.range (b + 1 - a).toNat).map (fun (i : ℕ) => a + (i : ℤ))

/-- The inner `while axes_to_delete_number > 0` loop of
`decide_time_of_death`: pop the axis with the latest emergence time
(`T_em_leaf1_tuples.pop()`, the last element of the ascending-sorted list)
and record its death at thermal time `tt`.  Popping from an empty list is
Python's `IndexError`, embedded as `none`. -/
def popDeaths (tuples : List (ℚ × ℕ)) (tt : ℤ) (count : ℕ) (acc : List (ℕ × ℤ)) :
    Option (List (ℚ × ℕ) × List (ℕ × ℤ)) :=
  match count with
  | 0 => some (tuples, acc)
  | cnt + 1 =>
    match tuples.getLast? with
    | none => none
    | some last => popDeaths tuples.dropLast tt cnt (acc ++ [(last.2, tt)])

/-- The `for tt in range(int(TT_bolting), int(TT_flowering) + 1)` loop of
`decide_time_of_death`, with the early `break` once no axis remains. -/
def deathLoop (tts : List ℤ) (coeffs : ℚ × ℚ) (tuples : List (ℚ × ℕ))
    (remaining : ℤ) (acc : List (ℕ × ℤ)) : Option (List (ℕ × ℤ)) :=
  match tts with
  | [] => some acc
  | tt :: rest =>
    let simulated := pyInt (polyval coeffs (tt : ℚ))
    let toDelete := remaining - simulated
    match popDeaths tuples tt toDelete.toNat acc with
    | none => none
    | some td =>
      let remaining2 := remaining - (toDelete.toNat : ℤ)
      if remaining2 = 0 then some td.2
      else deathLoop rest coeffs td.1 remaining2 td.2

/-- The output assembly of `decide_time_of_death`: sort the recorded
`(row, tt)` pairs by row, list their death times, and insert `np.nan`
(embedded as `none`) at every row index that never died. -/
def buildOutput (n : ℕ) (acc : List (ℕ × ℤ)) : List (Option ℤ) :=
  let sorted := List.insertionSort
    (fun a b : ℕ × ℤ => a.1 < b.1 ∨ (a.1 = b.1 ∧ a.2 ≤ b.2)) acc
  let rows := sorted.map Prod.fst
  (List.range n).foldl
    (fun l i => if i ∈ rows then l else l.insertIdx i none) (sorted.map (fun p => some p.2))

/-- Embedding of `decide_time_of_death(max_axes_number, min_axes_number,
TT_em_phytomer1, TT_bolting, TT_flowering)` from `plantgen/tools.py`.  Python's tuple sort of
`zip(TT_em_phytomer1, range(n))` is ascending lexicographic (emergence time,
then original index); `np.nan` entries of the result are embedded as `none`;
an `IndexError` from popping more axes than exist propagates as `none`. -/
def decide_time_of_death (max_axes_number min_axes_number : ℤ)
    (TT_em_phytomer1 : List ℚ) (TT_bolting TT_flowering : ℚ) :
    Option (List (Option ℤ)) :=
  let coeffs := polyfit2 TT_flowering TT_bolting (min_axes_number : ℚ) (max_axes_number : ℚ)
  let tuples := List.insertionSort
    (fun a b : ℚ × ℕ => a.1 < b.1 ∨ (a.1 = b.1 ∧ a.2 ≤ b.2))
    (TT_em_phytomer1.zip (List.range TT_em_phytomer1.length))
  match deathLoop (intRange (pyInt TT_bolting) (pyInt TT_flowering)) coeffs tuples
      max_axes_number [] with
  | none => none
  | some acc => some (buildOutput TT_em_phytomer1.length acc)

/-- C7: at `max_axes = 10`, `min_axes = 2`, ten axes all emerging at 0,
`TT_bolting = 100`, `TT_flowering = 110`, the result has length 10 with
exactly 8 resolved death times and 2 unresolved entries. -/
theorem decide_time_of_death_example :
    (decide_time_of_death 10 2 (List.replicate 10 0) 100 110).map
        (fun l => (l.length, l.countP (fun o => o.isSome), l.countP (fun o => o.isNone)))
      = some (10, 8, 2) := by decide

/-- Counterexample for C6: at `TT_bolting = TT_flowering = 100.5` (the
preconditions `0 ≤ TT_bolting ≤ TT_flowering`, `max ≥ min ≥ 0` all hold),
the rank-deficient two-point fit returns the minimum-norm line
`(2/67)·t + 3`, whose value at `int(100.5) = 100` is `401/67 ≈ 5.985`, so
`int(polyval) = 5 < 10` and the loop deletes five axes (rows 5–9) already at
thermal time `100`: a death time `100 < TT_bolting` is assigned, outside the
closed window `[TT_bolting, TT_flowering]`. -/
theorem decide_time_of_death_before_bolting :
    decide_time_of_death 10 2 (List.replicate 10 0) (201/2) (201/2)
      = some [none, none, none, none, none, some 100, some 100, some 100,
          some 100, some 100]
    ∧ some (100 : ℤ) ∈ [none, none, none, none, none, some 100, some 100, some 100,
          some 100, some (100 : ℤ)]
    ∧ ¬ ((201/2 : ℚ) ≤ ((100 : ℤ) : ℚ)) :=
  ⟨by decide, by decide, by decide⟩

lemma mem_insertIdx_weak {β : Type} (i : ℕ) (a : β) :
    ∀ (l : List β) (x : β), x ∈ l.insertIdx i a → x = a ∨ x ∈ l := by
  induction i with
  | zero =>
    intro l x hx
    simpa using List.mem_cons.1 hx
  | succ i ih =>
    intro l x hx
    match l with
    | [] => simp [List.insertIdx] at hx
    | b :: t =>
      rw [List.insertIdx_succ_cons] at hx
      rcases List.mem_cons.1 hx with rfl | hx2
      · exact Or.inr (List.mem_cons_self _ _)
      · rcases ih t x hx2 with h | h
        · exact Or.inl h
        · exact Or.inr (List.mem_cons_of_mem _ h)

lemma mem_foldl_insertIdx (rows : List ℕ) :
    ∀ (is : List ℕ) (l : List (Option ℤ)) (x : Option ℤ),
      x ∈ is.foldl (fun l i => if i ∈ rows then l else l.insertIdx i none) l →
        x = none ∨ x ∈ l := by
  intro is
  induction is with
  | nil => intro l x hx; exact Or.inr hx
  | cons i rest ih =>
    intro l x hx
    rw [List.foldl_cons] at hx
    by_cases hi : i ∈ rows
    · rw [if_pos hi] at hx
      exact ih l x hx
    · rw [if_neg hi] at hx
      rcases ih _ x hx with h | h
      · exact Or.inl h
      · exact mem_insertIdx_weak i none l x h

lemma buildOutput_mem (n : ℕ) (acc : List (ℕ × ℤ)) (x : Option ℤ)
    (hx : x ∈ buildOutput n acc) : x = none ∨ ∃ p ∈ acc, x = some p.2 := by
  rcases mem_foldl_insertIdx _ _ _ _ hx with h | h
  · exact Or.inl h
  · right
    simp only [List.mem_map] at h
    obtain ⟨p, hp, rfl⟩ := h
    exact ⟨p, (List.perm_insertionSort _ acc).mem_iff.1 hp, rfl⟩

lemma popDeaths_mem : ∀ (count : ℕ) (tuples : List (ℚ × ℕ)) (tt : ℤ)
    (acc : List (ℕ × ℤ)) (td : List (ℚ × ℕ) × List (ℕ × ℤ)),
    popDeaths tuples tt count acc = some td →
    ∀ rt ∈ td.2, rt ∈ acc ∨ rt.2 = tt := by
  intro count
  induction count with
  | zero =>
    intro tuples tt acc td h rt hrt
    have heq : (tuples, acc) = td := by simpa [popDeaths] using h
    subst heq
    exact Or.inl hrt
  | succ cnt ih =>
    intro tuples tt acc td h rt hrt
    rcases hlast : tuples.getLast? with _ | last
    · rw [popDeaths, hlast] at h
      exact absurd h (by simp)
    · rw [popDeaths, hlast] at h
      rcases ih tuples.dropLast tt _ td h rt hrt with h2 | h2
      · rcases List.mem_append.1 h2 with h3 | h3
        · exact Or.inl h3
        · right
          have : rt = (last.2, tt) := by simpa using h3
          rw [this]
      · exact Or.inr h2

lemma deathLoop_mem : ∀ (tts : List ℤ) (coeffs : ℚ × ℚ) (tuples : List (ℚ × ℕ))
    (remaining : ℤ) (acc out : List (ℕ × ℤ)),
    deathLoop tts coeffs tuples remaining acc = some out →
    ∀ rt ∈ out, rt ∈ acc ∨ rt.2 ∈ tts := by
  intro tts
  induction tts with
  | nil =>
    intro coeffs tuples remaining acc out h rt hrt
    have : acc = out := by simpa [deathLoop] using h
    subst this
    exact Or.inl hrt
  | cons tt rest ih =>
    intro coeffs tuples remaining acc out h rt hrt
    rcases hpop : popDeaths tuples tt (remaining - pyInt (polyval coeffs (tt : ℚ))).toNat acc
        with _ | td
    · simp [deathLoop, hpop] at h
    · simp only [deathLoop, hpop] at h
      by_cases hz : remaining - ((remaining - pyInt (polyval coeffs (tt : ℚ))).toNat : ℤ) = 0
      · rw [if_pos hz] at h
        have : td.2 = out := by simpa using h
        subst this
        rcases popDeaths_mem _ tuples tt acc td hpop rt hrt with h2 | h2
        · exact Or.inl h2
        · exact Or.inr (h2 ▸ List.mem_cons_self _ _)
      · rw [if_neg hz] at h
        rcases ih coeffs td.1 _ td.2 out h rt hrt with h2 | h2
        · rcases popDeaths_mem _ tuples tt acc td hpop rt h2 with h3 | h3
          · exact Or.inl h3
          · exact Or.inr (h3 ▸ List.mem_cons_self _ _)
        · exact Or.inr (List.mem_cons_of_mem _ h2)

lemma deathLoop_first_step (tt : ℤ) (rest : List ℤ) (coeffs : ℚ × ℚ)
    (tuples : List (ℚ × ℕ)) (remaining : ℤ) (acc : List (ℕ × ℤ))
    (h : remaining ≤ pyInt (polyval coeffs (tt : ℚ))) :
    deathLoop (tt :: rest) coeffs tuples remaining acc
      = if remaining = 0 then some acc else deathLoop rest coeffs tuples remaining acc := by
  have htd : (remaining - pyInt (polyval coeffs (tt : ℚ))).toNat = 0 := by omega
  rw [deathLoop]
  simp only [htd]
  rw [show popDeaths tuples tt 0 acc = some (tuples, acc) from rfl]
  simp

lemma mem_intRange {a b t : ℤ} (h : t ∈ intRange a b) : a ≤ t ∧ t ≤ b := by
  simp only [intRange, List.mem_map, List.mem_range] at h
  obtain ⟨i, hi, rfl⟩ := h
  omega

lemma intRange_cons {a b : ℤ} (h : a ≤ b) :
    intRange a b = a :: intRange (a + 1) b := by
  simp only [intRange]
  have h1 : (b + 1 - a).toNat = (b + 1 - (a + 1)).toNat + 1 := by omega
  rw [h1, List.range_succ_eq_map, List.map_cons, List.map_map]
  have h0 : a + ((0 : ℕ) : ℤ) = a := by simp
  rw [h0]
  congr 1
  refine List.map_congr_left ?_
  intro i hi
  simp only [Function.comp_apply]
  push_cast
  ring

/-- Amended C6: under the preconditions `max_axes ≥ min_axes ≥ 0` and
`0 ≤ TT_bolting < TT_flowering` (strictly, so the two-point fit is
non-degenerate), every death time assigned by `decide_time_of_death` lies in
the closed window `[TT_bolting, TT_flowering]`.  (At
`TT_bolting = TT_flowering` the rank-deficient fit can assign deaths at
`int(TT_bolting) < TT_bolting`, see `decide_time_of_death_before_bolting`.) -/
theorem decide_time_of_death_window (max_axes_number min_axes_number : ℤ)
    (TT_em_phytomer1 : List ℚ) (TT_bolting TT_flowering : ℚ)
    (hminmax : min_axes_number ≤ max_axes_number)
    (hmin0 : 0 ≤ min_axes_number)
    (hb0 : 0 ≤ TT_bolting)
    (hbf : TT_bolting < TT_flowering)
    (out : List (Option ℤ))
    (hout : decide_time_of_death max_axes_number min_axes_number TT_em_phytomer1
        TT_bolting TT_flowering = some out) :
    ∀ t : ℤ, some t ∈ out → TT_bolting ≤ (t : ℚ) ∧ (t : ℚ) ≤ TT_flowering := by
  intro t ht
  have hf0 : (0 : ℚ) ≤ TT_flowering := le_of_lt (lt_of_le_of_lt hb0 hbf)
  have hpb : pyInt TT_bolting = ⌊TT_bolting⌋ := pyInt_eq_floor hb0
  have hpf : pyInt TT_flowering = ⌊TT_flowering⌋ := pyInt_eq_floor hf0
  rcases hdl : deathLoop (intRange (pyInt TT_bolting) (pyInt TT_flowering))
      (polyfit2 TT_flowering TT_bolting (min_axes_number : ℚ) (max_axes_number : ℚ))
      (List.insertionSort (fun a b : ℚ × ℕ => a.1 < b.1 ∨ (a.1 = b.1 ∧ a.2 ≤ b.2))
        (TT_em_phytomer1.zip (List.range TT_em_phytomer1.length)))
      max_axes_number [] with _ | acc
  · simp [decide_time_of_death, hdl] at hout
  · simp only [decide_time_of_death, hdl] at hout
    have hout2 : buildOutput TT_em_phytomer1.length acc = out := by
      simpa using hout
    rw [← hout2] at ht
    rcases buildOutput_mem _ _ _ ht with hnone | ⟨p, hp, hpt⟩
    · exact absurd hnone (by simp)
    have hpt2 : p.2 = t := by
      have := hpt.symm
      simpa using this
    -- the fitted line evaluated at the first loop step is at least `max_axes`
    have hden : TT_bolting - TT_flowering ≠ 0 := sub_ne_zero.2 (ne_of_lt hbf)
    have hcoeffs : polyfit2 TT_flowering TT_bolting (min_axes_number : ℚ) (max_axes_number : ℚ)
        = (((max_axes_number : ℚ) - (min_axes_number : ℚ)) / (TT_bolting - TT_flowering),
           (min_axes_number : ℚ)
             - ((max_axes_number : ℚ) - (min_axes_number : ℚ)) / (TT_bolting - TT_flowering)
               * TT_flowering) := by
      rw [polyfit2, if_neg (ne_of_lt hbf)]
    have hc1 : (polyfit2 TT_flowering TT_bolting (min_axes_number : ℚ) (max_axes_number : ℚ)).1
        = ((max_axes_number : ℚ) - (min_axes_number : ℚ)) / (TT_bolting - TT_flowering) := by
      rw [hcoeffs]
    have hc2 : (polyfit2 TT_flowering TT_bolting (min_axes_number : ℚ) (max_axes_number : ℚ)).2
        = (min_axes_number : ℚ)
          - ((max_axes_number : ℚ) - (min_axes_number : ℚ)) / (TT_bolting - TT_flowering)
            * TT_flowering := by
      rw [hcoeffs]
    have hslope : (polyfit2 TT_flowering TT_bolting
        (min_axes_number : ℚ) (max_axes_number : ℚ)).1 ≤ 0 := by
      rw [hc1]
      apply div_nonpos_of_nonneg_of_nonpos
      · have : (min_axes_number : ℚ) ≤ (max_axes_number : ℚ) := by exact_mod_cast hminmax
        linarith
      · linarith
    have hlineb : polyval (polyfit2 TT_flowering TT_bolting
        (min_axes_number : ℚ) (max_axes_number : ℚ)) TT_bolting = (max_axes_number : ℚ) := by
      rw [polyval, hc1, hc2]
      field_simp
      ring
    have hfloorle : ((⌊TT_bolting⌋ : ℤ) : ℚ) ≤ TT_bolting := Int.floor_le TT_bolting
    have hvalge : (max_axes_number : ℚ) ≤ polyval (polyfit2 TT_flowering TT_bolting
        (min_axes_number : ℚ) (max_axes_number : ℚ)) ((⌊TT_bolting⌋ : ℤ) : ℚ) := by
      rw [polyval] at hlineb ⊢
      nlinarith [hslope, hfloorle]
    have hval : max_axes_number ≤ pyInt (polyval (polyfit2 TT_flowering TT_bolting
        (min_axes_number : ℚ) (max_axes_number : ℚ)) ((⌊TT_bolting⌋ : ℤ) : ℚ)) := by
      have hmax0 : (0 : ℚ) ≤ (max_axes_number : ℚ) := by
        exact_mod_cast le_trans hmin0 hminmax
      rw [pyInt_eq_floor (le_trans hmax0 hvalge)]
      exact Int.le_floor.2 hvalge
    have hab : ⌊TT_bolting⌋ ≤ ⌊TT_flowering⌋ := Int.floor_le_floor (le_of_lt hbf)
    rw [hpb, hpf, intRange_cons hab,
      deathLoop_first_step _ _ _ _ _ _ hval] at hdl
    by_cases hz : max_axes_number = 0
    · rw [if_pos hz] at hdl
      have hacc : ([] : List (ℕ × ℤ)) = acc := by simpa using hdl
      rw [← hacc] at hp
      exact absurd hp (by simp)
    · rw [if_neg hz] at hdl
      rcases deathLoop_mem _ _ _ _ _ _ hdl p hp with h2 | h2
      · exact absurd h2 (by simp)
      · have hrange := mem_intRange h2
        constructor
        · have h3 : TT_bolting < ((⌊TT_bolting⌋ : ℤ) : ℚ) + 1 := Int.lt_floor_add_one TT_bolting
          have h4 : ((⌊TT_bolting⌋ + 1 : ℤ) : ℚ) ≤ ((t : ℤ) : ℚ) := by
            exact_mod_cast (hpt2 ▸ hrange.1)
          push_cast at h4
          linarith
        · have h5 : ((t : ℤ) : ℚ) ≤ ((⌊TT_flowering⌋ : ℤ) : ℚ) := by
            exact_mod_cast (hpt2 ▸ hrange.2)
          have h6 : ((⌊TT_flowering⌋ : ℤ) : ℚ) ≤ TT_flowering := Int.floor_le TT_flowering
          linarith

/-- Witness for `decide_time_of_death_window` at `max_axes = 10`,
`min_axes = 2`, ten axes emerging at 0, `TT_bolting = 100`,
`TT_flowering = 110`. -/
theorem decide_time_of_death_window_witness :
    decide_time_of_death 10 2 (List.replicate 10 0) 100 110
      = some [none, none, some 109, some 108, some 107, some 106, some 104,
          some 103, some 102, some 101]
    ∧ ∀ t : ℤ, some t ∈ [none, none, some 109, some 108, some 107, some 106, some 104,
          some 103, some 102, some (101 : ℤ)] → (100 : ℚ) ≤ (t : ℚ) ∧ (t : ℚ) ≤ 110 := by
  have h : decide_time_of_death 10 2 (List.replicate 10 0) 100 110
      = some [none, none, some 109, some 108, some 107, some 106, some 104,
          some 103, some 102, some 101] := by decide
  exact ⟨h, fun t ht => decide_time_of_death_window 10 2 (List.replicate 10 0) 100 110
    (by norm_num) (by norm_num) (by norm_num) (by norm_num) _ h t ht⟩

end Adel
